import Mathlib

/-!
Verification of the data-shape description language implemented by the
type-level definitions in `ExpressingYourself.ts`, `TakingShape.ts` and
`FinalIngredient.ts`.

Expressions are modelled as `List Char` (the character data of the
TypeScript string literals).  The TypeScript template-literal matches are
embedded exactly:

* `` Fragment extends `${infer Optional}?` `` matches iff the fragment ends
  with `'?'`, binding `Optional` to everything before the final `'?'`
  (a trailing literal in a template-literal pattern is anchored at the end);
* `` Fragment extends `${infer Right}|${infer Left}` `` matches iff the
  fragment contains `'|'`, splitting at the FIRST `'|'` (the leading
  placeholder matches lazily), `Right` being the part before it;
* `` Fragment extends `${infer Item}[]` `` matches iff the fragment ends
  with `"[]"`.

The recursions of `ValidateFragment`, `TypeOfExpression` and the AST
parse are not structural on the fragment, so each is defined through a
fuel parameter (`gas`) that strictly exceeds the fragment length; fuel
sufficiency and irrelevance are proved below, so the wrappers satisfy the
expected unfolding equations.
-/

/-- Suffix "?" of the Optional template-literal pattern. -/
def qm : List Char := ['?']

/-- Suffix "[]" of the List template-literal pattern. -/
def brk : List Char := ['[', ']']

/-- Removes `p` from the front of `l`, or fails. -/
def dropPfx : List Char → List Char → Option (List Char)
  | [], l => some l
  | _ :: _, [] => none
  | c :: p, x :: l => if x = c then dropPfx p l else none

/-- Removes the suffix `sfx` from `f`: the anchored trailing-literal match
of a TypeScript template-literal pattern `` `${infer X}sfx` ``. -/
def stripSfx (sfx f : List Char) : Option (List Char) :=
  (dropPfx sfx.reverse f.reverse).map List.reverse

/-- Splits at the first occurrence of `c`, as TypeScript infers
`` `${infer Right}|${infer Left}` `` at the first `'|'`. -/
def splitAtFirst (c : Char) : List Char → Option (List Char × List Char)
  | [] => none
  | x :: xs =>
    if x = c then some ([], xs)
    else
      match splitAtFirst c xs with
      | some (l, r) => some (x :: l, r)
      | none => none

/-- Keys of `StartingSmall.KeywordsToTypes`. -/
def isKeyword (f : List Char) : Bool :=
  decide (f = "string".data) || decide (f = "number".data) ||
    decide (f = "boolean".data) || decide (f = "null".data) ||
    decide (f = "any".data)

/-- Prefix `Error: ` of every type-level error string in the source. -/
def errMark : List Char := "Error: ".data

/-- Tail of `` `Error: ${Fragment} is not a valid expression.` ``. -/
def errTail : List Char := " is not a valid expression.".data

/-- The error string `` `Error: ${Fragment} is not a valid expression.` ``
produced by `ValidateFragment` for an unrecognised fragment. -/
def errorOf (f : List Char) : List Char := errMark ++ f ++ errTail

/-- Runtime values a shape expression is checked against: the JavaScript
data universe the inferred TypeScript types classify. Numbers only need an
"is a number" test here, so their carrier is `Int`. -/
inductive Value where
  | undef
  | nullV
  | str (s : List Char)
  | num (n : Int)
  | boolV (b : Bool)
  | arr (elems : List Value)
  | obj (fields : List (List Char × Value))

/-- Tests for the `undefined` value. -/
def Value.isUndef : Value → Bool
  | .undef => true
  | _ => false

/-- Tests for a string value. -/
def Value.isStr : Value → Bool
  | .str _ => true
  | _ => false

/-- Tests for a number value. -/
def Value.isNum : Value → Bool
  | .num _ => true
  | _ => false

/-- Tests for a boolean value. -/
def Value.isBool : Value → Bool
  | .boolV _ => true
  | _ => false

/-- Tests for the `null` value. -/
def Value.isNull : Value → Bool
  | .nullV => true
  | _ => false

/-- Membership predicate of `StartingSmall.TypeOfKeyword`: the runtime
test of the primitive type a keyword maps to (`any` accepts everything). -/
def keywordPred (k : List Char) (v : Value) : Bool :=
  if k = "string".data then v.isStr
  else if k = "number".data then v.isNum
  else if k = "boolean".data then v.isBool
  else if k = "null".data then v.isNull
  else true

/-- Fuel-indexed embedding of `ExpressingYourself.ValidateFragment`
(and of `FinalIngredient.ValidateFragment`, whose extra
`Fragment extends keyof Space` case is the `f ∈ s` test; the
`ExpressingYourself` version is the instance `s = []`).  Returns `root`
when the fragment is valid and the `Error:` string otherwise, exactly as
the source type evaluates to `Root` or to the template-literal error. -/
def VFgas : Nat → List (List Char) → List Char → List Char → List Char
  | 0, _, f, _ => errorOf f
  | g + 1, s, f, root =>
    match stripSfx qm f with
    | some inner => VFgas g s inner root
    | none =>
      match splitAtFirst '|' f with
      | some (l, r) =>
        if VFgas g s l root = root then VFgas g s r root else VFgas g s l root
      | none =>
        match stripSfx brk f with
        | some item => VFgas g s item root
        | none =>
          if isKeyword f then root
          else if f ∈ s then root
          else errorOf f

/-- `ValidateFragment<Fragment, Root, Space>` from the source, with the
space given by the list of its member names. -/
def ValidateFragment (s : List (List Char)) (f root : List Char) : List Char :=
  VFgas (f.length + 1) s f root

/-- `ValidateExpression<Expression, Space> = ValidateFragment<Expression,
Expression, Space>`.  An expression is valid exactly when this returns the
expression itself (the source's assignability test against `Root`). -/
def ValidateExpression (s : List (List Char)) (e : List Char) : List Char :=
  ValidateFragment s e e

/-- Fuel-indexed embedding of `ExpressingYourself.TypeOfExpression` as the
membership test of the inferred type: `?` adds `undefined`, `|` is a union
of the two halves, `[]` restricts to arrays of members of the item type, a
keyword denotes its primitive test, and any other atom infers `unknown`
(which every value inhabits). -/
def TOEgas : Nat → List Char → Value → Bool
  | 0, _, _ => false
  | g + 1, e, v =>
    match stripSfx qm e with
    | some inner => v.isUndef || TOEgas g inner v
    | none =>
      match splitAtFirst '|' e with
      | some (l, r) => TOEgas g l v || TOEgas g r v
      | none =>
        match stripSfx brk e with
        | some item =>
          (match v with
           | .arr xs => xs.all fun x => TOEgas g item x
           | _ => false)
        | none => if isKeyword e then keywordPred e v else true

/-- `TypeOfExpression<Expression>` as a value-acceptance test. -/
def TypeOfExpression (e : List Char) (v : Value) : Bool :=
  TOEgas (e.length + 1) e v

/-- Abstract syntax of shape expressions (the ExpressionNode model of the
spec); produced by reading `ValidateFragment`'s checks in their source
order. -/
inductive Node where
  | keyword (name : List Char)
  | reference (name : List Char)
  | list (item : Node)
  | union (l r : Node)
  | optional (inner : Node)

/-- Fuel-indexed AST reading of `ValidateFragment`: the same checks in the
same order, producing the matched node instead of `Root`, and `none`
instead of the error string.  `union a b` records the part before the
first `'|'` as `a`. -/
def parseGas : Nat → List (List Char) → List Char → Option Node
  | 0, _, _ => none
  | g + 1, s, e =>
    match stripSfx qm e with
    | some inner => (parseGas g s inner).map .optional
    | none =>
      match splitAtFirst '|' e with
      | some (l, r) =>
        match parseGas g s l, parseGas g s r with
        | some a, some b => some (.union a b)
        | _, _ => none
      | none =>
        match stripSfx brk e with
        | some item => (parseGas g s item).map .list
        | none =>
          if isKeyword e then some (.keyword e)
          else if e ∈ s then some (.reference e)
          else none

/-- Parses an expression against a space's member names. -/
def parseExpr (s : List (List Char)) (e : List Char) : Option Node :=
  parseGas (e.length + 1) s e

theorem dropPfx_eq_some :
    ∀ (p l r : List Char), dropPfx p l = some r ↔ l = p ++ r := by
  intro p
  induction p with
  | nil => intro l r; simp [dropPfx]
  | cons c p ih =>
    intro l r
    cases l with
    | nil => simp [dropPfx]
    | cons x l =>
      by_cases hx : x = c
      · subst hx
        simp [dropPfx, ih]
      · simp [dropPfx, hx]

theorem stripSfx_eq_some (sfx f x : List Char) :
    stripSfx sfx f = some x ↔ f = x ++ sfx := by
  simp only [stripSfx, Option.map_eq_some', dropPfx_eq_some]
  constructor
  · rintro ⟨a, h1, rfl⟩
    have := congrArg List.reverse h1
    simpa using this
  · rintro rfl
    exact ⟨x.reverse, by simp, by simp⟩

theorem stripSfx_self_append (sfx x : List Char) :
    stripSfx sfx (x ++ sfx) = some x :=
  (stripSfx_eq_some sfx (x ++ sfx) x).mpr rfl

theorem append_singleton_inj {l₁ l₂ : List Char} {a b : Char}
    (h : l₁ ++ [a] = l₂ ++ [b]) : a = b := by
  have := congrArg List.getLast? h
  simpa [List.getLast?_concat] using this

theorem splitAtFirst_eq_some (c : Char) :
    ∀ (f l r : List Char), splitAtFirst c f = some (l, r) →
      f = l ++ c :: r ∧ c ∉ l := by
  intro f
  induction f with
  | nil => intro l r h; simp [splitAtFirst] at h
  | cons x xs ih =>
    intro l r h
    by_cases hx : x = c
    · subst hx
      simp [splitAtFirst] at h
      obtain ⟨rfl, rfl⟩ := h
      simp
    · simp only [splitAtFirst, if_neg hx] at h
      cases hsp : splitAtFirst c xs with
      | none => rw [hsp] at h; simp at h
      | some p =>
        obtain ⟨l', r'⟩ := p
        rw [hsp] at h
        simp at h
        obtain ⟨rfl, rfl⟩ := h
        obtain ⟨hxs, hnl⟩ := ih l' r' hsp
        subst hxs
        refine ⟨rfl, ?_⟩
        intro hmem
        rcases List.mem_cons.mp hmem with h | h
        · exact hx h.symm
        · exact hnl h

theorem splitAtFirst_eq_none (c : Char) :
    ∀ f : List Char, splitAtFirst c f = none ↔ c ∉ f := by
  intro f
  induction f with
  | nil => simp [splitAtFirst]
  | cons x xs ih =>
    by_cases hx : x = c
    · subst hx
      simp [splitAtFirst]
    · simp only [splitAtFirst, if_neg hx]
      cases hsp : splitAtFirst c xs with
      | none =>
        rw [hsp] at ih
        simp [List.mem_cons, ih.mp rfl, Ne.symm hx]
      | some p =>
        simp only [List.mem_cons]
        constructor
        · intro h; simp at h
        · intro h
          exfalso
          have : c ∈ xs := by
            rcases (not_or.mp h) with ⟨h1, h2⟩
            by_contra hc
            rw [← ih] at hc
            rw [hc] at hsp
            exact Option.noConfusion hsp
          rcases not_or.mp h with ⟨_, h2⟩
          exact h2 this

theorem splitAtFirst_append_some (c : Char) :
    ∀ (a b l r : List Char), splitAtFirst c a = some (l, r) →
      splitAtFirst c (a ++ b) = some (l, r ++ b) := by
  intro a
  induction a with
  | nil => intro b l r h; simp [splitAtFirst] at h
  | cons x xs ih =>
    intro b l r h
    by_cases hx : x = c
    · subst hx
      simp [splitAtFirst] at h ⊢
      obtain ⟨rfl, rfl⟩ := h
      simp
    · simp only [splitAtFirst, if_neg hx] at h ⊢
      cases hsp : splitAtFirst c xs with
      | none => rw [hsp] at h; simp at h
      | some p =>
        obtain ⟨l', r'⟩ := p
        rw [hsp] at h
        simp at h
        obtain ⟨rfl, rfl⟩ := h
        simp only [List.append_eq]
        rw [ih b l' r' hsp]

theorem splitAtFirst_append_none (c : Char) (a b : List Char)
    (ha : splitAtFirst c a = none) (hb : c ∉ b) :
    splitAtFirst c (a ++ b) = none := by
  rw [splitAtFirst_eq_none] at ha ⊢
  simp [List.mem_append, ha, hb]

theorem length_lt_of_stripSfx_qm {f inner : List Char}
    (h : stripSfx qm f = some inner) : inner.length < f.length := by
  have hf := (stripSfx_eq_some qm f inner).mp h
  rw [hf]
  simp only [List.length_append, qm, List.length_cons, List.length_nil]
  omega

theorem length_lt_of_stripSfx_brk {f item : List Char}
    (h : stripSfx brk f = some item) : item.length < f.length := by
  have hf := (stripSfx_eq_some brk f item).mp h
  rw [hf]
  simp only [List.length_append, brk, List.length_cons, List.length_nil]
  omega

theorem length_lt_of_split {f l r : List Char}
    (h : splitAtFirst '|' f = some (l, r)) :
    l.length < f.length ∧ r.length < f.length := by
  obtain ⟨hf, -⟩ := splitAtFirst_eq_some '|' f l r h
  rw [hf]
  simp only [List.length_append, List.length_cons]
  omega

theorem VFgas_irrel :
    ∀ (g₁ g₂ : Nat) (s : List (List Char)) (f root : List Char),
      f.length < g₁ → f.length < g₂ → VFgas g₁ s f root = VFgas g₂ s f root
  | 0, _, _, _, _, h₁, _ => absurd h₁ (Nat.not_lt_zero _)
  | _ + 1, 0, _, _, _, _, h₂ => absurd h₂ (Nat.not_lt_zero _)
  | a + 1, b + 1, s, f, root, h₁, h₂ => by
    simp only [VFgas]
    cases hq : stripSfx qm f with
    | some inner =>
      have hlen := length_lt_of_stripSfx_qm hq
      exact VFgas_irrel a b s inner root (by omega) (by omega)
    | none =>
      cases hsp : splitAtFirst '|' f with
      | some p =>
        obtain ⟨l, r⟩ := p
        obtain ⟨hl, hr⟩ := length_lt_of_split hsp
        have e1 := VFgas_irrel a b s l root (by omega) (by omega)
        have e2 := VFgas_irrel a b s r root (by omega) (by omega)
        simp only [e1, e2]
      | none =>
        cases hbk : stripSfx brk f with
        | some item =>
          have hlen := length_lt_of_stripSfx_brk hbk
          exact VFgas_irrel a b s item root (by omega) (by omega)
        | none => rfl
termination_by g₁ _ _ _ _ _ _ => g₁

theorem VFgas_eq_VF (g : Nat) (s : List (List Char)) (f root : List Char)
    (h : f.length < g) : VFgas g s f root = ValidateFragment s f root :=
  VFgas_irrel g (f.length + 1) s f root h (Nat.lt_succ_self _)

theorem ValidateFragment_step (s : List (List Char)) (f root : List Char) :
    ValidateFragment s f root =
      (match stripSfx qm f with
       | some inner => ValidateFragment s inner root
       | none =>
         match splitAtFirst '|' f with
         | some (l, r) =>
           if ValidateFragment s l root = root then ValidateFragment s r root
           else ValidateFragment s l root
         | none =>
           match stripSfx brk f with
           | some item => ValidateFragment s item root
           | none =>
             if isKeyword f then root
             else if f ∈ s then root
             else errorOf f) := by
  show VFgas (f.length + 1) s f root = _
  simp only [VFgas]
  cases hq : stripSfx qm f with
  | some inner =>
    exact VFgas_eq_VF _ _ _ _ (length_lt_of_stripSfx_qm hq)
  | none =>
    cases hsp : splitAtFirst '|' f with
    | some p =>
      obtain ⟨l, r⟩ := p
      obtain ⟨hl, hr⟩ := length_lt_of_split hsp
      have e1 := VFgas_eq_VF f.length s l root hl
      have e2 := VFgas_eq_VF f.length s r root hr
      simp only [e1, e2]
    | none =>
      cases hbk : stripSfx brk f with
      | some item =>
        exact VFgas_eq_VF _ _ _ _ (length_lt_of_stripSfx_brk hbk)
      | none => rfl

theorem TOEgas_irrel :
    ∀ (g₁ g₂ : Nat) (e : List Char),
      e.length < g₁ → e.length < g₂ →
      ∀ v : Value, TOEgas g₁ e v = TOEgas g₂ e v
  | 0, _, _, h₁, _, _ => absurd h₁ (Nat.not_lt_zero _)
  | _ + 1, 0, _, _, h₂, _ => absurd h₂ (Nat.not_lt_zero _)
  | a + 1, b + 1, e, h₁, h₂, v => by
    simp only [TOEgas]
    cases hq : stripSfx qm e with
    | some inner =>
      have hlen := length_lt_of_stripSfx_qm hq
      have e1 := TOEgas_irrel a b inner (by omega) (by omega) v
      simp only [e1]
    | none =>
      cases hsp : splitAtFirst '|' e with
      | some p =>
        obtain ⟨l, r⟩ := p
        obtain ⟨hl, hr⟩ := length_lt_of_split hsp
        have e1 := TOEgas_irrel a b l (by omega) (by omega) v
        have e2 := TOEgas_irrel a b r (by omega) (by omega) v
        simp only [e1, e2]
      | none =>
        cases hbk : stripSfx brk e with
        | some item =>
          have hlen := length_lt_of_stripSfx_brk hbk
          have hx : ∀ x : Value, TOEgas a item x = TOEgas b item x :=
            TOEgas_irrel a b item (by omega) (by omega)
          simp only [hx]
        | none => rfl
termination_by g₁ _ _ _ _ _ => g₁

theorem TOEgas_eq_TOE (g : Nat) (e : List Char) (h : e.length < g)
    (v : Value) : TOEgas g e v = TypeOfExpression e v :=
  TOEgas_irrel g (e.length + 1) e h (Nat.lt_succ_self _) v

theorem TypeOfExpression_step (e : List Char) (v : Value) :
    TypeOfExpression e v =
      (match stripSfx qm e with
       | some inner => v.isUndef || TypeOfExpression inner v
       | none =>
         match splitAtFirst '|' e with
         | some (l, r) => TypeOfExpression l v || TypeOfExpression r v
         | none =>
           match stripSfx brk e with
           | some item =>
             (match v with
              | .arr xs => xs.all fun x => TypeOfExpression item x
              | _ => false)
           | none => if isKeyword e then keywordPred e v else true) := by
  show TOEgas (e.length + 1) e v = _
  simp only [TOEgas]
  cases hq : stripSfx qm e with
  | some inner =>
    have e1 := TOEgas_eq_TOE _ _ (length_lt_of_stripSfx_qm hq) v
    simp only [e1]
  | none =>
    cases hsp : splitAtFirst '|' e with
    | some p =>
      obtain ⟨l, r⟩ := p
      obtain ⟨hl, hr⟩ := length_lt_of_split hsp
      have e1 := TOEgas_eq_TOE _ _ hl v
      have e2 := TOEgas_eq_TOE _ _ hr v
      simp only [e1, e2]
    | none =>
      cases hbk : stripSfx brk e with
      | some item =>
        have hx : ∀ x : Value, TOEgas e.length item x = TypeOfExpression item x :=
          TOEgas_eq_TOE _ _ (length_lt_of_stripSfx_brk hbk)
        simp only [hx]
      | none => rfl

theorem parseGas_irrel :
    ∀ (g₁ g₂ : Nat) (s : List (List Char)) (e : List Char),
      e.length < g₁ → e.length < g₂ → parseGas g₁ s e = parseGas g₂ s e
  | 0, _, _, _, h₁, _ => absurd h₁ (Nat.not_lt_zero _)
  | _ + 1, 0, _, _, _, h₂ => absurd h₂ (Nat.not_lt_zero _)
  | a + 1, b + 1, s, e, h₁, h₂ => by
    simp only [parseGas]
    cases hq : stripSfx qm e with
    | some inner =>
      have hlen := length_lt_of_stripSfx_qm hq
      have e1 := parseGas_irrel a b s inner (by omega) (by omega)
      simp only [e1]
    | none =>
      cases hsp : splitAtFirst '|' e with
      | some p =>
        obtain ⟨l, r⟩ := p
        obtain ⟨hl, hr⟩ := length_lt_of_split hsp
        have e1 := parseGas_irrel a b s l (by omega) (by omega)
        have e2 := parseGas_irrel a b s r (by omega) (by omega)
        simp only [e1, e2]
      | none =>
        cases hbk : stripSfx brk e with
        | some item =>
          have hlen := length_lt_of_stripSfx_brk hbk
          have e1 := parseGas_irrel a b s item (by omega) (by omega)
          simp only [e1]
        | none => rfl
termination_by g₁ _ _ _ _ _ => g₁

theorem parseGas_eq_parse (g : Nat) (s : List (List Char)) (e : List Char)
    (h : e.length < g) : parseGas g s e = parseExpr s e :=
  parseGas_irrel g (e.length + 1) s e h (Nat.lt_succ_self _)

theorem parseExpr_step (s : List (List Char)) (e : List Char) :
    parseExpr s e =
      (match stripSfx qm e with
       | some inner => (parseExpr s inner).map Node.optional
       | none =>
         match splitAtFirst '|' e with
         | some (l, r) =>
           match parseExpr s l, parseExpr s r with
           | some a, some b => some (Node.union a b)
           | _, _ => none
         | none =>
           match stripSfx brk e with
           | some item => (parseExpr s item).map Node.list
           | none =>
             if isKeyword e then some (Node.keyword e)
             else if e ∈ s then some (Node.reference e)
             else none) := by
  show parseGas (e.length + 1) s e = _
  simp only [parseGas]
  cases hq : stripSfx qm e with
  | some inner =>
    have e1 := parseGas_eq_parse e.length s inner (length_lt_of_stripSfx_qm hq)
    simp only [e1]
  | none =>
    cases hsp : splitAtFirst '|' e with
    | some p =>
      obtain ⟨l, r⟩ := p
      obtain ⟨hl, hr⟩ := length_lt_of_split hsp
      have e1 := parseGas_eq_parse e.length s l hl
      have e2 := parseGas_eq_parse e.length s r hr
      simp only [e1, e2]
    | none =>
      cases hbk : stripSfx brk e with
      | some item =>
        have e1 := parseGas_eq_parse e.length s item (length_lt_of_stripSfx_brk hbk)
        simp only [e1]
      | none => rfl

theorem VF_qm (s : List (List Char)) (f root inner : List Char)
    (h : stripSfx qm f = some inner) :
    ValidateFragment s f root = ValidateFragment s inner root := by
  rw [ValidateFragment_step, h]

theorem VF_union (s : List (List Char)) (f root l r : List Char)
    (h1 : stripSfx qm f = none) (h2 : splitAtFirst '|' f = some (l, r)) :
    ValidateFragment s f root =
      (if ValidateFragment s l root = root then ValidateFragment s r root
       else ValidateFragment s l root) := by
  rw [ValidateFragment_step, h1, h2]

theorem VF_brk (s : List (List Char)) (f root item : List Char)
    (h1 : stripSfx qm f = none) (h2 : splitAtFirst '|' f = none)
    (h3 : stripSfx brk f = some item) :
    ValidateFragment s f root = ValidateFragment s item root := by
  rw [ValidateFragment_step, h1, h2, h3]

theorem VF_atom (s : List (List Char)) (f root : List Char)
    (h1 : stripSfx qm f = none) (h2 : splitAtFirst '|' f = none)
    (h3 : stripSfx brk f = none) :
    ValidateFragment s f root =
      (if isKeyword f then root else if f ∈ s then root else errorOf f) := by
  rw [ValidateFragment_step, h1, h2, h3]

theorem TOE_qm (f inner : List Char) (v : Value)
    (h : stripSfx qm f = some inner) :
    TypeOfExpression f v = (v.isUndef || TypeOfExpression inner v) := by
  rw [TypeOfExpression_step, h]

theorem TOE_union (f l r : List Char) (v : Value)
    (h1 : stripSfx qm f = none) (h2 : splitAtFirst '|' f = some (l, r)) :
    TypeOfExpression f v = (TypeOfExpression l v || TypeOfExpression r v) := by
  rw [TypeOfExpression_step, h1, h2]

theorem TOE_brk (f item : List Char) (v : Value)
    (h1 : stripSfx qm f = none) (h2 : splitAtFirst '|' f = none)
    (h3 : stripSfx brk f = some item) :
    TypeOfExpression f v =
      (match v with
       | .arr xs => xs.all fun x => TypeOfExpression item x
       | _ => false) := by
  rw [TypeOfExpression_step, h1, h2, h3]

theorem TOE_atom (f : List Char) (v : Value)
    (h1 : stripSfx qm f = none) (h2 : splitAtFirst '|' f = none)
    (h3 : stripSfx brk f = none) :
    TypeOfExpression f v = (if isKeyword f then keywordPred f v else true) := by
  rw [TypeOfExpression_step, h1, h2, h3]

theorem parse_qm (s : List (List Char)) (f inner : List Char)
    (h : stripSfx qm f = some inner) :
    parseExpr s f = (parseExpr s inner).map Node.optional := by
  rw [parseExpr_step, h]

theorem parse_union (s : List (List Char)) (f l r : List Char)
    (h1 : stripSfx qm f = none) (h2 : splitAtFirst '|' f = some (l, r)) :
    parseExpr s f =
      (match parseExpr s l, parseExpr s r with
       | some a, some b => some (Node.union a b)
       | _, _ => none) := by
  rw [parseExpr_step, h1, h2]

theorem parse_brk (s : List (List Char)) (f item : List Char)
    (h1 : stripSfx qm f = none) (h2 : splitAtFirst '|' f = none)
    (h3 : stripSfx brk f = some item) :
    parseExpr s f = (parseExpr s item).map Node.list := by
  rw [parseExpr_step, h1, h2, h3]

theorem parse_atom (s : List (List Char)) (f : List Char)
    (h1 : stripSfx qm f = none) (h2 : splitAtFirst '|' f = none)
    (h3 : stripSfx brk f = none) :
    parseExpr s f =
      (if isKeyword f then some (Node.keyword f)
       else if f ∈ s then some (Node.reference f)
       else none) := by
  rw [parseExpr_step, h1, h2, h3]

/-- Contiguous-segment relation: `a` occurs inside `b`.  Every fragment
`ValidateFragment` recurses into is a segment of the original root
expression. -/
def SubSeg (a b : List Char) : Prop := ∃ p q, b = p ++ a ++ q

theorem subseg_rfl (a : List Char) : SubSeg a a :=
  ⟨[], [], by simp⟩

theorem subseg_mem {a b : List Char} (h : SubSeg a b) {x : Char}
    (hx : x ∈ a) : x ∈ b := by
  rcases h with ⟨p, q, rfl⟩
  simp [List.mem_append, hx]

theorem subseg_trans {a b c : List Char} (h1 : SubSeg a b) (h2 : SubSeg b c) :
    SubSeg a c := by
  rcases h1 with ⟨p, q, rfl⟩
  rcases h2 with ⟨p', q', rfl⟩
  exact ⟨p' ++ p, q ++ q', by simp⟩

theorem subseg_qm {f inner : List Char} (h : stripSfx qm f = some inner) :
    SubSeg inner f :=
  ⟨[], qm, by simpa using (stripSfx_eq_some qm f inner).mp h⟩

theorem subseg_brk {f item : List Char} (h : stripSfx brk f = some item) :
    SubSeg item f :=
  ⟨[], brk, by simpa using (stripSfx_eq_some brk f item).mp h⟩

theorem subseg_split_l {f l r : List Char}
    (h : splitAtFirst '|' f = some (l, r)) : SubSeg l f :=
  ⟨[], '|' :: r, by simpa using (splitAtFirst_eq_some '|' f l r h).1⟩

theorem subseg_split_r {f l r : List Char}
    (h : splitAtFirst '|' f = some (l, r)) : SubSeg r f := by
  obtain ⟨hf, -⟩ := splitAtFirst_eq_some '|' f l r h
  exact ⟨l ++ ['|'], [], by simp [hf]⟩

theorem errMark_length : errMark.length = 7 := rfl

theorem errTail_length : errTail.length = 27 := rfl

theorem errorOf_length (a : List Char) :
    (errorOf a).length = a.length + 34 := by
  simp only [errorOf, List.length_append, errMark_length, errTail_length]
  omega

theorem errorOf_ne_self (a : List Char) : errorOf a ≠ a := by
  intro h
  have := congrArg List.length h
  rw [errorOf_length] at this
  omega

theorem errorOf_concat (a : List Char) :
    errorOf a = (errMark ++ a ++ " is not a valid expression".data) ++ ['.'] := by
  have h : errTail = " is not a valid expression".data ++ ['.'] := rfl
  simp [errorOf, h]

theorem stripSfx_qm_errorOf (a : List Char) :
    stripSfx qm (errorOf a) = none := by
  cases h : stripSfx qm (errorOf a) with
  | none => rfl
  | some x =>
    exfalso
    have hx := (stripSfx_eq_some qm (errorOf a) x).mp h
    rw [errorOf_concat] at hx
    have : ('.' : Char) = '?' := append_singleton_inj hx
    exact absurd this (by decide)

theorem stripSfx_brk_errorOf (a : List Char) :
    stripSfx brk (errorOf a) = none := by
  cases h : stripSfx brk (errorOf a) with
  | none => rfl
  | some x =>
    exfalso
    have hx := (stripSfx_eq_some brk (errorOf a) x).mp h
    rw [errorOf_concat] at hx
    have hx' : (errMark ++ a ++ " is not a valid expression".data) ++ ['.'] =
        (x ++ ['[']) ++ [']'] := by simpa [brk] using hx
    have : ('.' : Char) = ']' := append_singleton_inj hx'
    exact absurd this (by decide)

theorem pipe_not_mem_errorOf {a : List Char} (h : '|' ∉ a) :
    '|' ∉ errorOf a := by
  intro hm
  rcases List.mem_append.mp hm with hm1 | hm2
  · rcases List.mem_append.mp hm1 with hm3 | hm4
    · exact absurd hm3 (by decide)
    · exact h hm4
  · exact absurd hm2 (by decide)

theorem split_errorOf {a : List Char} (h : '|' ∉ a) :
    splitAtFirst '|' (errorOf a) = none :=
  (splitAtFirst_eq_none '|' (errorOf a)).mpr (pipe_not_mem_errorOf h)

theorem isKeyword_errorOf (a : List Char) : isKeyword (errorOf a) = false := by
  by_contra hk
  have hk' : isKeyword (errorOf a) = true := by
    cases h : isKeyword (errorOf a) with
    | false => exact absurd h hk
    | true => rfl
  simp only [isKeyword, Bool.or_eq_true, decide_eq_true_eq] at hk'
  have hlen := errorOf_length a
  rcases hk' with ((((h | h) | h) | h) | h)
  · rw [h, show ("string".data).length = 6 from rfl] at hlen; omega
  · rw [h, show ("number".data).length = 6 from rfl] at hlen; omega
  · rw [h, show ("boolean".data).length = 7 from rfl] at hlen; omega
  · rw [h, show ("null".data).length = 4 from rfl] at hlen; omega
  · rw [h, show ("any".data).length = 3 from rfl] at hlen; omega

/-- A fragment that parses validates against any root: the source's
`ValidateFragment` evaluates to `Root` on every fragment whose checks all
succeed, whatever `Root` is instantiated with. -/
theorem parse_some_imp_VF (s : List (List Char)) (f : List Char)
    (h : (parseExpr s f).isSome = true) :
    ∀ root, ValidateFragment s f root = root := by
  intro root
  cases hq : stripSfx qm f with
  | some inner =>
    have hlen := length_lt_of_stripSfx_qm hq
    rw [parse_qm s f inner hq] at h
    simp only [Option.isSome_map'] at h
    rw [VF_qm s f root inner hq]
    exact parse_some_imp_VF s inner h root
  | none =>
    cases hsp : splitAtFirst '|' f with
    | some p =>
      obtain ⟨l, r⟩ := p
      obtain ⟨hll, hlr⟩ := length_lt_of_split hsp
      rw [parse_union s f l r hq hsp] at h
      rw [VF_union s f root l r hq hsp]
      cases hpl : parseExpr s l with
      | none =>
        rw [hpl] at h
        cases hpr : parseExpr s r with
        | none => rw [hpr] at h; simp at h
        | some b => rw [hpr] at h; simp at h
      | some a =>
        rw [hpl] at h
        cases hpr : parseExpr s r with
        | none => rw [hpr] at h; simp at h
        | some b =>
          have hvl := parse_some_imp_VF s l (by rw [hpl]; rfl) root
          have hvr := parse_some_imp_VF s r (by rw [hpr]; rfl) root
          rw [hvl, hvr, if_pos rfl]
    | none =>
      cases hbk : stripSfx brk f with
      | some item =>
        have hlen := length_lt_of_stripSfx_brk hbk
        rw [parse_brk s f item hq hsp hbk] at h
        simp only [Option.isSome_map'] at h
        rw [VF_brk s f root item hq hsp hbk]
        exact parse_some_imp_VF s item h root
      | none =>
        rw [parse_atom s f hq hsp hbk] at h
        rw [VF_atom s f root hq hsp hbk]
        by_cases hk : isKeyword f
        · simp [hk]
        · by_cases hm : f ∈ s
          · simp [hk, hm]
          · simp [hk, hm] at h
termination_by f.length
decreasing_by all_goals omega

/-- Shape of a `ValidateFragment` run on a segment of the root: either the
fragment parses and the run returns the root, or it does not parse and the
run returns the error string of some `'|'`-free fragment. -/
theorem VF_shape (s : List (List Char)) (f root : List Char)
    (hs : SubSeg f root) :
    ((parseExpr s f).isSome = true ∧ ValidateFragment s f root = root) ∨
      (parseExpr s f = none ∧
        ∃ a, ValidateFragment s f root = errorOf a ∧ '|' ∉ a) := by
  cases hq : stripSfx qm f with
  | some inner =>
    have hlen := length_lt_of_stripSfx_qm hq
    have hsub := subseg_trans (subseg_qm hq) hs
    rw [parse_qm s f inner hq, VF_qm s f root inner hq]
    rcases VF_shape s inner root hsub with ⟨h1, h2⟩ | ⟨h1, h2⟩
    · left
      exact ⟨by simpa using h1, h2⟩
    · right
      exact ⟨by rw [h1]; rfl, h2⟩
  | none =>
    cases hsp : splitAtFirst '|' f with
    | some p =>
      obtain ⟨l, r⟩ := p
      obtain ⟨hll, hlr⟩ := length_lt_of_split hsp
      have hsl := subseg_trans (subseg_split_l hsp) hs
      have hsr := subseg_trans (subseg_split_r hsp) hs
      have hpipe : '|' ∈ f := by
        obtain ⟨hf, -⟩ := splitAtFirst_eq_some '|' f l r hsp
        rw [hf]; simp
      rw [parse_union s f l r hq hsp, VF_union s f root l r hq hsp]
      rcases VF_shape s l root hsl with ⟨h1, h2⟩ | ⟨h1, h2⟩
      · rw [h2, if_pos rfl]
        rcases VF_shape s r root hsr with ⟨h3, h4⟩ | ⟨h3, h4⟩
        · left
          refine ⟨?_, h4⟩
          obtain ⟨a, ha⟩ := Option.isSome_iff_exists.mp h1
          obtain ⟨b, hb⟩ := Option.isSome_iff_exists.mp h3
          rw [ha, hb]
          rfl
        · right
          refine ⟨?_, h4⟩
          rw [h3]
          cases parseExpr s l <;> rfl
      · obtain ⟨a, ha, hna⟩ := h2
        have hne : errorOf a ≠ root := by
          intro hcontra
          have : '|' ∈ errorOf a := hcontra ▸ subseg_mem hs hpipe
          exact pipe_not_mem_errorOf hna this
        rw [ha, if_neg hne]
        right
        refine ⟨?_, a, rfl, hna⟩
        rw [h1]
    | none =>
      cases hbk : stripSfx brk f with
      | some item =>
        have hlen := length_lt_of_stripSfx_brk hbk
        have hsub := subseg_trans (subseg_brk hbk) hs
        rw [parse_brk s f item hq hsp hbk, VF_brk s f root item hq hsp hbk]
        rcases VF_shape s item root hsub with ⟨h1, h2⟩ | ⟨h1, h2⟩
        · left
          exact ⟨by simpa using h1, h2⟩
        · right
          exact ⟨by rw [h1]; rfl, h2⟩
      | none =>
        rw [parse_atom s f hq hsp hbk, VF_atom s f root hq hsp hbk]
        by_cases hk : isKeyword f
        · left; simp [hk]
        · by_cases hm : f ∈ s
          · left; simp [hk, hm]
          · right
            refine ⟨by simp [hk, hm], f, by simp [hk, hm], ?_⟩
            exact (splitAtFirst_eq_none '|' f).mp hsp
termination_by f.length
decreasing_by all_goals omega

/-- An expression is valid in the source's sense (`ValidateExpression`
returns the expression itself) exactly when the AST parse succeeds. -/
theorem valid_iff_parse (s : List (List Char)) (e : List Char) :
    ValidateExpression s e = e ↔ (parseExpr s e).isSome = true := by
  constructor
  · intro h
    rcases VF_shape s e e (subseg_rfl e) with ⟨h1, _⟩ | ⟨h1, h2⟩
    · exact h1
    · exfalso
      obtain ⟨a, ha, hna⟩ := h2
      have he : e = errorOf a := by rw [← h]; exact ha
      have hq : stripSfx qm e = none := by rw [he]; exact stripSfx_qm_errorOf a
      have hsp : splitAtFirst '|' e = none := by rw [he]; exact split_errorOf hna
      have hbk : stripSfx brk e = none := by rw [he]; exact stripSfx_brk_errorOf a
      have hkw : isKeyword e = false := by rw [he]; exact isKeyword_errorOf a
      rw [parse_atom s e hq hsp hbk, hkw] at h1
      simp only [Bool.false_eq_true, if_false] at h1
      by_cases hm : e ∈ s
      · rw [if_pos hm] at h1; exact Option.noConfusion h1
      · have hvf := VF_atom s e e hq hsp hbk
        rw [hkw] at hvf
        simp only [Bool.false_eq_true, if_false, if_neg hm] at hvf
        have h' : ValidateFragment s e e = e := h
        rw [h'] at hvf
        exact errorOf_ne_self e hvf.symm
  · intro h
    exact parse_some_imp_VF s e h e

theorem stripSfx_qm_append_brk (x : List Char) :
    stripSfx qm (x ++ brk) = none := by
  cases h : stripSfx qm (x ++ brk) with
  | none => rfl
  | some y =>
    exfalso
    have hx := (stripSfx_eq_some qm _ y).mp h
    have hx' : (x ++ ['[']) ++ [']'] = y ++ ['?'] := by
      simpa [brk, qm] using hx
    have : (']' : Char) = '?' := append_singleton_inj hx'
    exact absurd this (by decide)

/-- Both halves of the first-`'|'` split of a valid expression are valid:
the half before the split is parsed as written, and a trailing `'?'` on
the whole expression reappears as a trailing `'?'` on the second half. -/
theorem valid_split (s : List (List Char)) (e l r : List Char)
    (h : (parseExpr s e).isSome = true)
    (hsp : splitAtFirst '|' e = some (l, r)) :
    (parseExpr s l).isSome = true ∧ (parseExpr s r).isSome = true := by
  cases hq : stripSfx qm e with
  | some inner =>
    have hlen := length_lt_of_stripSfx_qm hq
    rw [parse_qm s e inner hq] at h
    simp only [Option.isSome_map'] at h
    have hin := (stripSfx_eq_some qm e inner).mp hq
    cases hsi : splitAtFirst '|' inner with
    | none =>
      exfalso
      have hnone : splitAtFirst '|' e = none := by
        rw [hin]
        exact splitAtFirst_append_none '|' inner qm hsi (by decide)
      rw [hnone] at hsp
      exact Option.noConfusion hsp
    | some p =>
      obtain ⟨l', r'⟩ := p
      have hsome : splitAtFirst '|' e = some (l', r' ++ qm) := by
        rw [hin]
        exact splitAtFirst_append_some '|' inner qm l' r' hsi
      have heq := hsome.symm.trans hsp
      simp only [Option.some.injEq, Prod.mk.injEq] at heq
      obtain ⟨heql, hr⟩ := heq
      obtain ⟨hql, hqr⟩ := valid_split s inner l' r' h hsi
      rw [heql] at hql
      refine ⟨hql, ?_⟩
      rw [← hr, parse_qm s (r' ++ qm) r' (stripSfx_self_append qm r')]
      simpa using hqr
  | none =>
    rw [parse_union s e l r hq hsp] at h
    cases hpl : parseExpr s l with
    | none =>
      rw [hpl] at h
      cases hpr : parseExpr s r with
      | none => rw [hpr] at h; simp at h
      | some b => rw [hpr] at h; simp at h
    | some a =>
      cases hpr : parseExpr s r with
      | none => rw [hpl, hpr] at h; simp at h
      | some b => exact ⟨rfl, rfl⟩
termination_by e.length
decreasing_by all_goals omega

/-- Appending `"[]"` preserves validity, for every valid expression
(including those containing `'|'` or ending in `'?'`). -/
theorem valid_append_brk (s : List (List Char)) (e : List Char)
    (h : (parseExpr s e).isSome = true) :
    (parseExpr s (e ++ brk)).isSome = true := by
  have hq : stripSfx qm (e ++ brk) = none := stripSfx_qm_append_brk e
  cases hsp : splitAtFirst '|' e with
  | some p =>
    obtain ⟨l, r⟩ := p
    obtain ⟨hl1, hr1⟩ := length_lt_of_split hsp
    have hspe : splitAtFirst '|' (e ++ brk) = some (l, r ++ brk) :=
      splitAtFirst_append_some '|' e brk l r hsp
    obtain ⟨hl, hr⟩ := valid_split s e l r h hsp
    have hrb := valid_append_brk s r hr
    rw [parse_union s (e ++ brk) l (r ++ brk) hq hspe]
    obtain ⟨a, ha⟩ := Option.isSome_iff_exists.mp hl
    obtain ⟨b, hb⟩ := Option.isSome_iff_exists.mp hrb
    rw [ha, hb]
    rfl
  | none =>
    have hspe : splitAtFirst '|' (e ++ brk) = none :=
      splitAtFirst_append_none '|' e brk hsp (by decide)
    rw [parse_brk s (e ++ brk) e hq hspe (stripSfx_self_append brk e)]
    simpa using h
termination_by e.length
decreasing_by all_goals omega

theorem isUndef_iff (v : Value) : v.isUndef = true ↔ v = Value.undef := by
  cases v <;> simp [Value.isUndef]

mutual
/-- ShapeDefinition surface: a string leaf (expression), a non-string
non-container leaf (number or boolean, rejected by validation), an object
shape, or a tuple shape.  `Fields` and `Defs` are inlined lists so that
all recursion over definitions is structural. -/
inductive Def where
  | str (e : List Char)
  | num (n : Int)
  | boolV (b : Bool)
  | obj (fields : Fields)
  | arr (elems : Defs)
inductive Fields where
  | nil
  | cons (key : List Char) (d : Def) (rest : Fields)
inductive Defs where
  | nil
  | cons (d : Def) (rest : Defs)
end

/-- The `` Def[Key] extends `${string}?` `` test of
`TakingShape.OptionalDefKeys`: true exactly when the value of a key is a
string leaf ending in `'?'` (syntactic test only, so a nested object or
tuple is never optional). -/
def isOptLeaf : Def → Bool
  | .str e => (stripSfx qm e).isSome
  | _ => false

/-- `TakingShape.OptionalDefKeys<Def>`: the keys of an object definition
whose values match the Optional template. -/
def OptionalDefKeys : Fields → List (List Char)
  | .nil => []
  | .cons k d rest =>
    if isOptLeaf d then k :: OptionalDefKeys rest else OptionalDefKeys rest

/-- Association list of an object definition's fields. -/
def Fields.toList : Fields → List (List Char × Def)
  | .nil => []
  | .cons k d rest => (k, d) :: rest.toList

/-- Message of the fixed structural-leaf error (the part after the
`Error: ` marker of the source literal). -/
def defLeafMsg : List Char :=
  "Definitions must be strings or objects whose leaves are strings.".data

mutual
/-- `FinalIngredient.Validate<Def, Space>` (and `TakingShape.Validate` at
`s = []`): objects and tuples recurse into every entry, a string leaf maps
to `ValidateExpression`, and any other leaf maps to the fixed error
string.  A definition is valid exactly when the result equals the
definition, mirroring the source's assignability test. -/
def ValidateDef (s : List (List Char)) : Def → Def
  | .str e => .str (ValidateExpression s e)
  | .num _ => .str (errMark ++ defLeafMsg)
  | .boolV _ => .str (errMark ++ defLeafMsg)
  | .obj fs => .obj (ValidateFields s fs)
  | .arr ds => .arr (ValidateDefs s ds)
def ValidateFields (s : List (List Char)) : Fields → Fields
  | .nil => .nil
  | .cons k d rest => .cons k (ValidateDef s d) (ValidateFields s rest)
def ValidateDefs (s : List (List Char)) : Defs → Defs
  | .nil => .nil
  | .cons d rest => .cons (ValidateDef s d) (ValidateDefs s rest)
end

mutual
/-- Tests whether a definition contains a leaf that is neither a string
nor a container. -/
def hasBadLeaf : Def → Bool
  | .str _ => false
  | .num _ => true
  | .boolV _ => true
  | .obj fs => hasBadLeafFields fs
  | .arr ds => hasBadLeafDefs ds
def hasBadLeafFields : Fields → Bool
  | .nil => false
  | .cons _ d rest => hasBadLeaf d || hasBadLeafFields rest
def hasBadLeafDefs : Defs → Bool
  | .nil => false
  | .cons d rest => hasBadLeaf d || hasBadLeafDefs rest
end

/-- Field lookup in an object value. -/
def lookupF (k : List Char) : List (List Char × Value) → Option Value
  | [] => none
  | (k', v) :: rest => if k' = k then some v else lookupF k rest

mutual
/-- Acceptance test of the type `TakingShape.TypeOf<Def>` infers for a
definition: a string leaf tests `TypeOfExpression`; a non-string leaf
infers `unknown` (every value passes); a tuple definition is the mapped
tuple type (same length, positional checks, no optional-key treatment, as
in the `Def extends any[]` branch of `TypeOfObject`); an object
definition requires every key of `OptionalDefKeys` only when present and
every other key always, checking present values against the key's
definition (membership in the `Evaluate`-merged object type of required
and optional keys, extra keys being allowed as in structural
assignability). -/
def conformsDef : Def → Value → Bool
  | .str e, v => TypeOfExpression e v
  | .num _, _ => true
  | .boolV _, _ => true
  | .obj fs, v =>
    match v with
    | .obj fields => conformsFields fs fields
    | _ => false
  | .arr ds, v =>
    match v with
    | .arr xs => conformsTuple ds xs
    | _ => false
def conformsTuple : Defs → List Value → Bool
  | .nil, [] => true
  | .nil, _ :: _ => false
  | .cons _ _, [] => false
  | .cons d rest, x :: xs => conformsDef d x && conformsTuple rest xs
def conformsFields : Fields → List (List Char × Value) → Bool
  | .nil, _ => true
  | .cons k d rest, fields =>
    (match lookupF k fields with
     | none => isOptLeaf d
     | some x => conformsDef d x) && conformsFields rest fields
end

/-- Names of the members of the cyclic space built in the source
(`const space = parse({user: ..., group: ..., category: ...})`). -/
def cyclicSpaceNames : List (List Char) :=
  ["user".data, "group".data, "category".data]

/-- Definition of the `user` member: `{name: "string", friends: "user[]",
groups: "group[]"}`. -/
def userDef : Def :=
  .obj (.cons "name".data (.str "string".data)
    (.cons "friends".data (.str "user[]".data)
      (.cons "groups".data (.str "group[]".data) .nil)))

/-- Definition of the `group` member: `{members: "user[]",
category: "category?"}`. -/
def groupDef : Def :=
  .obj (.cons "members".data (.str "user[]".data)
    (.cons "category".data (.str "category?".data) .nil))

/-- Definition of the `category` member: `{name: "string",
subcategories: "category[]"}`. -/
def categoryDef : Def :=
  .obj (.cons "name".data (.str "string".data)
    (.cons "subcategories".data (.str "category[]".data) .nil))

/-- The whole cyclic space as one object definition, as passed to
`parse`. -/
def cyclicSpace : Def :=
  .obj (.cons "user".data userDef
    (.cons "group".data groupDef
      (.cons "category".data categoryDef .nil)))

mutual
/-- A definition fixed by `ValidateDef` has no non-string, non-container
leaf. -/
theorem validateDef_id (s : List (List Char)) (d : Def)
    (h : ValidateDef s d = d) : hasBadLeaf d = false := by
  cases d with
  | str e => rfl
  | num n => simp [ValidateDef] at h
  | boolV b => simp [ValidateDef] at h
  | obj fs =>
    simp only [ValidateDef] at h
    injection h with h'
    simpa [hasBadLeaf] using validateFields_id s fs h'
  | arr ds =>
    simp only [ValidateDef] at h
    injection h with h'
    simpa [hasBadLeaf] using validateDefs_id s ds h'
theorem validateFields_id (s : List (List Char)) (fs : Fields)
    (h : ValidateFields s fs = fs) : hasBadLeafFields fs = false := by
  cases fs with
  | nil => rfl
  | cons k d rest =>
    simp only [ValidateFields] at h
    injection h with h1 h2 h3
    simp [hasBadLeafFields, validateDef_id s d h2, validateFields_id s rest h3]
theorem validateDefs_id (s : List (List Char)) (ds : Defs)
    (h : ValidateDefs s ds = ds) : hasBadLeafDefs ds = false := by
  cases ds with
  | nil => rfl
  | cons d rest =>
    simp only [ValidateDefs] at h
    injection h with h1 h2
    simp [hasBadLeafDefs, validateDef_id s d h1, validateDefs_id s rest h2]
end

theorem mem_OptionalDefKeys :
    ∀ (fs : Fields) (k : List Char),
      k ∈ OptionalDefKeys fs ↔
        ∃ d, (k, d) ∈ fs.toList ∧ isOptLeaf d = true
  | .nil, k => by simp [OptionalDefKeys, Fields.toList]
  | .cons k' d rest, k => by
    have ih := mem_OptionalDefKeys rest k
    by_cases hd : isOptLeaf d = true
    · simp only [OptionalDefKeys, if_pos hd, List.mem_cons, Fields.toList, ih]
      constructor
      · rintro (rfl | ⟨d', hmem, hopt⟩)
        · exact ⟨d, Or.inl rfl, hd⟩
        · exact ⟨d', Or.inr hmem, hopt⟩
      · rintro ⟨d', (hpair | hmem), hopt⟩
        · left
          exact (Prod.mk.injEq _ _ _ _ ▸ hpair).1
        · exact Or.inr ⟨d', hmem, hopt⟩
    · simp only [OptionalDefKeys, if_neg hd, List.mem_cons, Fields.toList, ih]
      constructor
      · rintro ⟨d', hmem, hopt⟩
        exact ⟨d', Or.inr hmem, hopt⟩
      · rintro ⟨d', (hpair | hmem), hopt⟩
        · exfalso
          have hd' : d' = d := (Prod.mk.injEq _ _ _ _ ▸ hpair).2
          rw [hd'] at hopt
          exact hd hopt
        · exact ⟨d', hmem, hopt⟩

/-- True when the AST contains `reference k` somewhere. -/
def refOccurs (k : List Char) : Node → Bool
  | .keyword _ => false
  | .reference n => decide (n = k)
  | .list i => refOccurs k i
  | .union a b => refOccurs k a || refOccurs k b
  | .optional i => refOccurs k i

/-- A parsed expression never contains a Reference node named after a
keyword: the keyword check precedes the space-member check. -/
theorem parse_no_keyword_ref (s : List (List Char)) (e : List Char)
    (t : Node) (h : parseExpr s e = some t) (k : List Char)
    (hk : isKeyword k = true) : refOccurs k t = false := by
  cases hq : stripSfx qm e with
  | some inner =>
    have hlen := length_lt_of_stripSfx_qm hq
    rw [parse_qm s e inner hq] at h
    cases hpi : parseExpr s inner with
    | none => rw [hpi] at h; simp at h
    | some ti =>
      rw [hpi] at h
      simp only [Option.map_some', Option.some.injEq] at h
      rw [← h]
      simpa [refOccurs] using parse_no_keyword_ref s inner ti hpi k hk
  | none =>
    cases hsp : splitAtFirst '|' e with
    | some p =>
      obtain ⟨l, r⟩ := p
      obtain ⟨hll, hlr⟩ := length_lt_of_split hsp
      rw [parse_union s e l r hq hsp] at h
      cases hpl : parseExpr s l with
      | none =>
        rw [hpl] at h
        cases hpr : parseExpr s r with
        | none => rw [hpr] at h; simp at h
        | some b => rw [hpr] at h; simp at h
      | some a =>
        rw [hpl] at h
        cases hpr : parseExpr s r with
        | none => rw [hpr] at h; simp at h
        | some b =>
          rw [hpr] at h
          simp only [Option.some.injEq] at h
          rw [← h]
          simp only [refOccurs, Bool.or_eq_false_iff]
          exact ⟨parse_no_keyword_ref s l a hpl k hk,
            parse_no_keyword_ref s r b hpr k hk⟩
    | none =>
      cases hbk : stripSfx brk e with
      | some item =>
        have hlen := length_lt_of_stripSfx_brk hbk
        rw [parse_brk s e item hq hsp hbk] at h
        cases hpi : parseExpr s item with
        | none => rw [hpi] at h; simp at h
        | some ti =>
          rw [hpi] at h
          simp only [Option.map_some', Option.some.injEq] at h
          rw [← h]
          simpa [refOccurs] using parse_no_keyword_ref s item ti hpi k hk
      | none =>
        rw [parse_atom s e hq hsp hbk] at h
        by_cases hkey : isKeyword e = true
        · rw [if_pos hkey] at h
          simp only [Option.some.injEq] at h
          rw [← h]
          rfl
        · rw [if_neg hkey] at h
          by_cases hm : e ∈ s
          · rw [if_pos hm] at h
            simp only [Option.some.injEq] at h
            rw [← h]
            simp only [refOccurs, decide_eq_false_iff_not]
            intro hek
            rw [hek] at hkey
            exact hkey hk
          · rw [if_neg hm] at h
            exact Option.noConfusion h
termination_by e.length
decreasing_by all_goals omega

theorem toe_number_iff (x : Value) :
    TypeOfExpression "number".data x = true ↔ ∃ n, x = Value.num n := by
  have h : ∀ y, TypeOfExpression "number".data y = Value.isNum y :=
    fun y => rfl
  cases x <;> simp [h, Value.isNum]

/-- Object definition with a single Optional-suffixed property:
`{middle: "string?"}`. -/
def middleDef : Def :=
  Def.obj (Fields.cons "middle".data (Def.str "string?".data) Fields.nil)

/-- Tuple definition `["string", "number?"]`. -/
def tupleEx : Def :=
  Def.arr (Defs.cons (Def.str "string".data)
    (Defs.cons (Def.str "number?".data) Defs.nil))

/-- C1: validation and type-inference test the shapes in the fixed order
trailing `'?'` (applying to the whole expression), first `'|'` (both
halves), trailing `"[]"`, keyword, then Space member; the AST parse that
follows exactly this order agrees with `ValidateExpression`, and
consequently `"string|number[]?"` denotes
`Optional(Union(Keyword string, List(Keyword number)))`, i.e. accepts
exactly strings, arrays of numbers, and `undefined`, while `"A|B[]"`
parses as `A|(B[])`. -/
theorem claim1_parse_order :
    (∀ (s : List (List Char)) (e : List Char),
      (parseExpr s e).isSome = true ↔ ValidateExpression s e = e) ∧
    parseExpr [] "string|number[]?".data =
      some (Node.optional (Node.union (Node.keyword "string".data)
        (Node.list (Node.keyword "number".data)))) ∧
    (∀ v : Value,
      TypeOfExpression "string|number[]?".data v = true ↔
        (v = Value.undef ∨ (∃ t, v = Value.str t) ∨
          (∃ xs, v = Value.arr xs ∧ ∀ x ∈ xs, ∃ n, x = Value.num n))) ∧
    parseExpr ["A".data, "B".data] "A|B[]".data =
      some (Node.union (Node.reference "A".data)
        (Node.list (Node.reference "B".data))) := by
  refine ⟨fun s e => (valid_iff_parse s e).symm, rfl, ?_, rfl⟩
  intro v
  cases v with
  | undef =>
    simp [show TypeOfExpression "string|number[]?".data Value.undef = true
      from rfl]
  | nullV =>
    simp [show TypeOfExpression "string|number[]?".data Value.nullV = false
      from rfl]
  | str t =>
    simp [show TypeOfExpression "string|number[]?".data (Value.str t) = true
      from rfl]
  | num n =>
    simp [show TypeOfExpression "string|number[]?".data (Value.num n) = false
      from rfl]
  | boolV b =>
    simp [show TypeOfExpression "string|number[]?".data (Value.boolV b) = false
      from rfl]
  | obj fields =>
    simp [show TypeOfExpression "string|number[]?".data (Value.obj fields) =
      false from rfl]
  | arr xs =>
    have harr : TypeOfExpression "string|number[]?".data (Value.arr xs) =
        xs.all (fun x => TOEgas 14 "number".data x) := rfl
    have hg : ∀ x : Value,
        TOEgas 14 "number".data x = TypeOfExpression "number".data x :=
      fun x => TOEgas_eq_TOE 14 "number".data (by decide) x
    simp only [harr, hg, List.all_eq_true]
    constructor
    · intro hall
      exact Or.inr (Or.inr
        ⟨xs, rfl, fun x hx => (toe_number_iff x).mp (hall x hx)⟩)
    · rintro (h | ⟨t, ht⟩ | ⟨ys, hys, hall⟩)
      · exact absurd h (by simp)
      · exact absurd ht (by simp)
      · have hxs : xs = ys := by injection hys
        subst hxs
        exact fun x hx => (toe_number_iff x).mpr (hall x hx)

/-- C2: building the cyclic user/group/category space succeeds (the
structural validation of the whole mapping, with the space's member names
as resolution context, returns the mapping unchanged — the source's
success criterion — and is a terminating computation by construction),
and a member-name reference is accepted by name membership alone: the
result is `root` independently of the referenced definition, which
`ValidateFragment` never consults. -/
theorem claim2_cyclic_space_build :
    ValidateDef cyclicSpaceNames cyclicSpace = cyclicSpace ∧
    (∀ root, ValidateFragment cyclicSpaceNames "user".data root = root) ∧
    (∀ root, ValidateFragment cyclicSpaceNames "group".data root = root) ∧
    (∀ root, ValidateFragment cyclicSpaceNames "category".data root = root) :=
  ⟨rfl, fun _ => rfl, fun _ => rfl, fun _ => rfl⟩

/-- C3 counterexample: `"string|number"` is a valid expression, yet
`"string|number" ++ "[]"` accepts the plain (non-array) string `"x"`,
because the union split at the first `'|'` precedes the `"[]"` strip; so
appending `"[]"` to a valid expression does not always accept only
arrays. -/
theorem claim3_counterexample :
    ValidateExpression [] "string|number".data = "string|number".data ∧
    TypeOfExpression ("string|number".data ++ brk)
      (Value.str "x".data) = true :=
  ⟨rfl, rfl⟩

/-- C3 amended: for every valid expression `e1`, `e1 ++ "[]"` is valid;
and whenever `e1` contains no `'|'`, `e1 ++ "[]"` accepts exactly the
arrays whose every element satisfies `e1` (and no non-array value). -/
theorem claim3_amended (s : List (List Char)) (e1 : List Char)
    (h : ValidateExpression s e1 = e1) :
    ValidateExpression s (e1 ++ brk) = e1 ++ brk ∧
    ('|' ∉ e1 → ∀ v : Value,
      TypeOfExpression (e1 ++ brk) v =
        (match v with
         | Value.arr xs => xs.all fun x => TypeOfExpression e1 x
         | _ => false)) := by
  have hp := (valid_iff_parse s e1).mp h
  constructor
  · exact (valid_iff_parse s (e1 ++ brk)).mpr (valid_append_brk s e1 hp)
  · intro hpipe v
    have hq : stripSfx qm (e1 ++ brk) = none := stripSfx_qm_append_brk e1
    have hsp : splitAtFirst '|' (e1 ++ brk) = none := by
      rw [splitAtFirst_eq_none]
      intro hmem
      rcases List.mem_append.mp hmem with h1 | h2
      · exact hpipe h1
      · exact absurd h2 (by decide)
    exact TOE_brk (e1 ++ brk) e1 v hq hsp (stripSfx_self_append brk e1)

/-- Witness for C3 amended, at `e1 = "number"` and the array `[2]`. -/
theorem claim3_amended_witness :
    ValidateExpression [] ("number".data ++ brk) = "number".data ++ brk ∧
    TypeOfExpression ("number".data ++ brk) (Value.arr [Value.num 2]) =
      true := by
  have h := claim3_amended [] "number".data rfl
  refine ⟨h.1, ?_⟩
  rw [h.2 (by decide) (Value.arr [Value.num 2])]
  rfl

/-- C4 counterexample: in `{middle: "string?"}` the key `middle` is
classified optional, and the derived acceptance logic accepts the object
`{}` in which the key is missing entirely — so the code does not treat a
`'?'`-suffixed property as a required key whose value may merely be
undefined, and the claimed distinction is not preserved. -/
theorem claim4_counterexample :
    "middle".data ∈ OptionalDefKeys
      (Fields.cons "middle".data (Def.str "string?".data) Fields.nil) ∧
    conformsDef middleDef (Value.obj []) = true :=
  ⟨by decide, rfl⟩

/-- C4 amended: a property whose own leaf expression ends in `'?'` becomes
an optional key of the inferred object shape: the definition validates,
the object may omit the key entirely or supply `undefined` for it, and a
present value is still checked against the expression's rule (a number is
rejected for `"string?"`). -/
theorem claim4_amended :
    ValidateDef [] middleDef = middleDef ∧
    conformsDef middleDef (Value.obj []) = true ∧
    conformsDef middleDef (Value.obj [("middle".data, Value.undef)]) = true ∧
    conformsDef middleDef
      (Value.obj [("middle".data, Value.str "x".data)]) = true ∧
    conformsDef middleDef (Value.obj [("middle".data, Value.num 3)]) = false :=
  ⟨rfl, rfl, rfl, rfl, rfl⟩

/-- C5: for every valid expression `e1` (unions included, since the
trailing `'?'` is stripped before the `'|'` split and so wraps the whole
expression), `e1 ++ "?"` is valid and accepts exactly the values `e1`
accepts plus `undefined`. -/
theorem claim5_optional_suffix (s : List (List Char)) (e1 : List Char)
    (h : ValidateExpression s e1 = e1) :
    ValidateExpression s (e1 ++ qm) = e1 ++ qm ∧
    ∀ v : Value, (TypeOfExpression (e1 ++ qm) v = true ↔
      (v = Value.undef ∨ TypeOfExpression e1 v = true)) := by
  have hp := (valid_iff_parse s e1).mp h
  constructor
  · apply (valid_iff_parse s (e1 ++ qm)).mpr
    rw [parse_qm s (e1 ++ qm) e1 (stripSfx_self_append qm e1)]
    simpa using hp
  · intro v
    rw [TOE_qm (e1 ++ qm) e1 v (stripSfx_self_append qm e1)]
    simp [Bool.or_eq_true, isUndef_iff]

/-- Witness for C5 at `e1 = "string"` and the value `undefined`. -/
theorem claim5_witness :
    ValidateExpression [] ("string".data ++ qm) = "string".data ++ qm ∧
    TypeOfExpression ("string".data ++ qm) Value.undef = true := by
  have h := claim5_optional_suffix [] "string".data rfl
  exact ⟨h.1, (h.2 Value.undef).mpr (Or.inl rfl)⟩

/-- C6: validating `"string|numbr[]?"` fails, and the error string is the
one for exactly the fragment `"numbr"` (the `'?'` is stripped, the split
at the first `'|'` validates `"string"` successfully, the right half
`"numbr[]"` loses its `"[]"` suffix, and `"numbr"` matches no keyword or
member); the result differs from the expression, so validation fails. -/
theorem claim6_malformed_fragment :
    ValidateExpression [] "string|numbr[]?".data = errorOf "numbr".data ∧
    errorOf "numbr".data ≠ "string|numbr[]?".data :=
  ⟨rfl, by decide⟩

/-- C7: a keyword atom always resolves to the keyword — the keyword test
precedes the member test, so a Space member named after a keyword is
shadowed and no parsed expression ever contains a Reference named after a
keyword — while an atom that is only a member name resolves as a
Reference. -/
theorem claim7_keyword_shadows :
    (∀ (s : List (List Char)) (n : List Char), isKeyword n = true →
      parseExpr s n = some (Node.keyword n)) ∧
    (∀ (s : List (List Char)) (n : List Char), isKeyword n = false →
      stripSfx qm n = none → splitAtFirst '|' n = none →
      stripSfx brk n = none → n ∈ s →
      parseExpr s n = some (Node.reference n)) ∧
    (∀ (s : List (List Char)) (e : List Char) (t : Node),
      parseExpr s e = some t → ∀ k, isKeyword k = true →
        refOccurs k t = false) := by
  refine ⟨?_, ?_, fun s e t h k hk => parse_no_keyword_ref s e t h k hk⟩
  · intro s n hk
    simp only [isKeyword, Bool.or_eq_true, decide_eq_true_eq] at hk
    rcases hk with ((((rfl | rfl) | rfl) | rfl) | rfl) <;> rfl
  · intro s n hk h1 h2 h3 hm
    rw [parse_atom s n h1 h2 h3, hk]
    simp [hm]

/-- Witness for C7: with a space containing a member named `string`, the
atom `string` parses as the keyword, not a reference; a member-only name
parses as a reference; and the parse of `string` contains no reference to
it. -/
theorem claim7_witness :
    parseExpr ["string".data] "string".data =
      some (Node.keyword "string".data) ∧
    parseExpr ["mytype".data] "mytype".data =
      some (Node.reference "mytype".data) ∧
    refOccurs "string".data (Node.keyword "string".data) = false := by
  have h := claim7_keyword_shadows
  refine ⟨h.1 ["string".data] "string".data (by decide), ?_, ?_⟩
  · exact h.2.1 ["mytype".data] "mytype".data (by decide) (by decide)
      (by decide) (by decide) (by decide)
  · exact h.2.2 ["string".data] "string".data (Node.keyword "string".data)
      (h.1 ["string".data] "string".data (by decide)) "string".data
      (by decide)

/-- C8: a number or boolean leaf always maps to the single fixed error
string (the `Error: ` marker followed by the fixed message), object and
array containers always map to containers (never to that error), and any
definition containing such a leaf fails structural validation. -/
theorem claim8_invalid_leaf :
    (∀ (s : List (List Char)) (n : Int),
      ValidateDef s (Def.num n) = Def.str (errMark ++ defLeafMsg)) ∧
    (∀ (s : List (List Char)) (b : Bool),
      ValidateDef s (Def.boolV b) = Def.str (errMark ++ defLeafMsg)) ∧
    (∀ (s : List (List Char)) (fs : Fields),
      ValidateDef s (Def.obj fs) = Def.obj (ValidateFields s fs)) ∧
    (∀ (s : List (List Char)) (ds : Defs),
      ValidateDef s (Def.arr ds) = Def.arr (ValidateDefs s ds)) ∧
    (∀ (s : List (List Char)) (d : Def), hasBadLeaf d = true →
      ValidateDef s d ≠ d) := by
  refine ⟨fun _ _ => rfl, fun _ _ => rfl, fun _ _ => rfl, fun _ _ => rfl, ?_⟩
  intro s d hb h
  rw [validateDef_id s d h] at hb
  exact Bool.noConfusion hb

/-- Witness for C8 at the numeric leaf `3`. -/
theorem claim8_witness : ValidateDef [] (Def.num 3) ≠ Def.num 3 :=
  claim8_invalid_leaf.2.2.2.2 [] (Def.num 3) rfl

/-- C9: a key is optional iff its value is a string leaf ending in `'?'`
(purely syntactic: the invalid `"numbr?"` still classifies as optional),
nested object and tuple values never classify as optional, and in a tuple
definition positions are checked positionally with no optional-key
treatment: a `'?'`-suffixed element does not let its position be
omitted (though the present value may be `undefined`). -/
theorem claim9_optional_classification :
    (∀ (fs : Fields) (k : List Char),
      k ∈ OptionalDefKeys fs ↔
        ∃ d, (k, d) ∈ fs.toList ∧ isOptLeaf d = true) ∧
    (OptionalDefKeys
        (Fields.cons "k".data (Def.str "numbr?".data) Fields.nil) =
      ["k".data] ∧
      ValidateExpression [] "numbr?".data ≠ "numbr?".data) ∧
    (∀ fs : Fields, isOptLeaf (Def.obj fs) = false) ∧
    (∀ ds : Defs, isOptLeaf (Def.arr ds) = false) ∧
    (conformsDef tupleEx (Value.arr [Value.str "a".data]) = false ∧
      conformsDef tupleEx
        (Value.arr [Value.str "a".data, Value.undef]) = true) :=
  ⟨mem_OptionalDefKeys, ⟨rfl, by decide⟩, fun _ => rfl, fun _ => rfl,
    ⟨rfl, rfl⟩⟩

/-- C10: the empty expression, the bare `"?"` and the bare `"[]"` all fail
validation, and in each case the error string is the one for the empty
fragment (the suffix is stripped and the empty remainder matches
nothing). -/
theorem claim10_empty_and_bare :
    (ValidateExpression [] [] = errorOf [] ∧ errorOf [] ≠ ([] : List Char)) ∧
    (ValidateExpression [] "?".data = errorOf [] ∧ errorOf [] ≠ "?".data) ∧
    (ValidateExpression [] "[]".data = errorOf [] ∧
      errorOf [] ≠ "[]".data) :=
  ⟨⟨rfl, by decide⟩, ⟨rfl, by decide⟩, ⟨rfl, by decide⟩⟩
